import Mathlib

/-!
Verification development for the storybook-branches CLI (src/cli.js).

The JavaScript source is shallowly embedded: file contents are Lean
`String`s, the per-branch on-disk output directory is a `BranchDir`
record, the output root is a map `String → Option BranchDir`, and the
orchestration functions (`doBuild`, `removeDeletedBranches`,
`fixInjectedBranches`, the default-branch update, the build loop and the
HTTP handler) become pure Lean functions.  External effects (subprocess
results, filesystem faults) are supplied by explicit oracles so that the
control flow of the source is reproduced exactly.
-/

namespace SB

/-! ## String rewriting primitives (JS `String.prototype.replace`)

JS `String.replace` does not insert the replacement string verbatim: it
runs ECMA-262 GetSubstitution over it, expanding `$$` to `$`, `$&` to
the matched substring, `$` + backquote to the part of the subject
before the match and `$` + quote to the part after it.  (`$n` and
`$<name>` refer to capture groups; the patterns used by cli.js — plain
strings and the regexes `/const branches = \[[^\]]*\];/` and
`/%defaultBranch%/g` — have none, so those stay literal.)  The
replacement strings of cli.js embed branch names, so this expansion is
observable and is modelled faithfully. -/

/-- The backquote character (code 96), written via its code so the
source file stays free of backquote characters. -/
def backquoteChar : Char := Char.ofNat 96

/-- The single-quote character (code 39). -/
def singleQuoteChar : Char := Char.ofNat 39

/-- ECMA-262 GetSubstitution for a pattern without capture groups:
`matched` is the matched substring, `before` the part of the subject
preceding the match, `after` the part following it.  A `$` not starting
one of the four recognized escapes, and a trailing lone `$`, are kept
literally. -/
def expandDollar (matched before after : List Char) : List Char → List Char
  | [] => []
  | [c] => [c]
  | c :: c2 :: rest =>
    if c = '$' then
      if c2 = '$' then '$' :: expandDollar matched before after rest
      else if c2 = '&' then matched ++ expandDollar matched before after rest
      else if c2 = backquoteChar then before ++ expandDollar matched before after rest
      else if c2 = singleQuoteChar then after ++ expandDollar matched before after rest
      else c :: expandDollar matched before after (c2 :: rest)
    else c :: expandDollar matched before after (c2 :: rest)

/-- `true` iff GetSubstitution is the identity on this replacement
string: it contains none of the two-character escapes `$$`, `$&`,
`$` + backquote, `$` + quote. -/
def noExpand : List Char → Bool
  | [] => true
  | [_] => true
  | c :: c2 :: rest =>
    if c = '$' ∧ (c2 = '$' ∨ c2 = '&' ∨ c2 = backquoteChar ∨ c2 = singleQuoteChar) then
      false
    else noExpand (c2 :: rest)

/-- JS `content.replace(pat, repl)` with a plain-string pattern:
replace the first occurrence of `pat`, scanning left to right, the
replacement going through GetSubstitution; with no occurrence the
content is returned unchanged.  `seen` is the already-scanned prefix of
the subject, in reverse. -/
def replaceFirstAux (pat repl : List Char) : List Char → List Char → List Char
  | seen, [] => if pat = [] then expandDollar [] seen.reverse [] repl else []
  | seen, c :: cs =>
    if pat.isPrefixOf (c :: cs) then
      expandDollar pat seen.reverse ((c :: cs).drop pat.length) repl
        ++ (c :: cs).drop pat.length
    else c :: replaceFirstAux pat repl (c :: seen) cs

/-- JS `content.replace(pat, repl)` for a plain-string `pat`. -/
def replaceFirstL (pat repl content : List Char) : List Char :=
  replaceFirstAux pat repl [] content

/-- JS `content.replace(/pat/g, repl)` with a plain-text pattern:
replace every (non-overlapping, left-to-right) occurrence of `pat`,
each replacement going through GetSubstitution against the original
subject; scanning resumes after the matched text.  Structured with a
fuel counter (the wrapper passes the content's length, which each step
strictly exceeds the consumed input by, so the `0` arm is never hit)
to keep the function kernel-reducible. -/
def replaceAllFuel (pat repl : List Char) : Nat → List Char → List Char → List Char
  | 0, _, l => l
  | Nat.succ n, seen, l =>
    match l with
    | [] => []
    | c :: cs =>
      if pat.isPrefixOf (c :: cs) ∧ 1 ≤ pat.length then
        expandDollar pat seen.reverse ((c :: cs).drop pat.length) repl
          ++ replaceAllFuel pat repl n (pat.reverse ++ seen) ((c :: cs).drop pat.length)
      else
        c :: replaceAllFuel pat repl n (c :: seen) cs

/-- JS `content.replace(/pat/g, repl)` for a literal-text pattern. -/
def replaceAllL (pat repl content : List Char) : List Char :=
  replaceAllFuel pat repl content.length [] content

/-- JS `s.trim()`: strip whitespace from both ends. -/
def trimL (l : List Char) : List Char :=
  ((l.dropWhile Char.isWhitespace).reverse.dropWhile Char.isWhitespace).reverse

/-- JS `s.trim()` on `String`s. -/
def strTrim (s : String) : String := String.mk (trimL s.data)

/-! ## The injected branch-list assignment

`cli.js` renders the branch list as
`const branches = [${branches.map(b => `"${b}"`).join(",")}];`
(writeModifiedIndexFile, line 270; fixInjectedBranches, line 303). -/

/-- `"${b}"` — one quoted branch name. -/
def quoteName (b : String) : List Char := '"' :: (b.data ++ ['"'])

/-- `branches.map(b => `"${b}"`).join(",")`. -/
def renderL : List String → List Char
  | [] => []
  | [b] => quoteName b
  | b :: b2 :: rest => quoteName b ++ ',' :: renderL (b2 :: rest)

/-- The literal prefix of the branch-list assignment, `const branches = [`. -/
def patOpen : List Char := "const branches = [".data

/-- The full rendered assignment `const branches = [...];`. -/
def assignL (bs : List String) : List Char := patOpen ++ renderL bs ++ [']', ';']

/-- The rendered assignment as a `String`. -/
def branchesAssign (bs : List String) : String := String.mk (assignL bs)

/-! ## The re-fix regex of `fixInjectedBranches`

`cli.js` line 302 replaces the first match of the regex
`/const branches = \[[^\]]*\];/`: the literal `const branches = [`,
then any characters other than `]`, then the literal `];`.
Because `[^\]]*` cannot cross a `]`, the regex matches at a given
position iff the first `]` after the opening bracket is immediately
followed by `;`. -/

/-- Scan for `[^\]]*\];` : succeed at the first `]`, which must be
followed by `;`; return the skipped characters and the rest. -/
def scanClose : List Char → Option (List Char × List Char)
  | [] => none
  | c :: cs =>
    if c = ']' then
      match cs with
      | ';' :: rest => some ([], rest)
      | _ => none
    else
      match scanClose cs with
      | some (mid, rest) => some (c :: mid, rest)
      | none => none

/-- Try to match the regex at the start of `l`; on success return the
matched text and the suffix after it. -/
def matchAt (l : List Char) : Option (List Char × List Char) :=
  if patOpen.isPrefixOf l then
    match scanClose (l.drop patOpen.length) with
    | some (mid, rest) => some (patOpen ++ mid ++ [']', ';'], rest)
    | none => none
  else none

/-- `content.replace(/const branches = \[[^\]]*\];/, repl)` : replace
the leftmost regex match by `repl` run through GetSubstitution (no
occurrence: unchanged).  `seen` is the already-scanned prefix of the
subject, in reverse. -/
def replaceBranchesAssignAux (repl : List Char) : List Char → List Char → List Char
  | _, [] => []
  | seen, c :: cs =>
    match matchAt (c :: cs) with
    | some (matched, rest) => expandDollar matched seen.reverse rest repl ++ rest
    | none => c :: replaceBranchesAssignAux repl (c :: seen) cs

/-- `content.replace(/const branches = \[[^\]]*\];/, repl)`. -/
def replaceBranchesAssign (repl content : List Char) : List Char :=
  replaceBranchesAssignAux repl [] content

/-- The content rewrite done by `fixInjectedBranches` for one entry page
(cli.js lines 301–304). -/
def fixInjectedContent (content : String) (branches : List String) : String :=
  String.mk (replaceBranchesAssign (assignL branches) content.data)

/-- The rendered assignment for `bs` occurs in `content`: the branch
list embedded in the page equals `bs`. -/
def embeddedBranches (content : String) (bs : List String) : Prop :=
  assignL bs <:+: content.data

/-! ## Assets (not present under src/, modelled from the spec) -/

/-- Modelled from the spec: the `assets/inject.html` asset (missing from
src/).  Per the spec it holds "a literal placeholder assignment of a
'current branch' scalar and a 'branch list' array", script-evaluable,
matching the placeholders that cli.js lines 267–269 replace. -/
def injectAsset : String :=
  "<script>const branch = null;const branches = [];</script>"

/-- Modelled from the spec: the `assets/redirect.html` asset (missing
from src/).  Per the spec, "the redirect page uses a single literal
placeholder token substituted with the default branch name". -/
def redirectAsset : String :=
  "<html><head><meta http-equiv=\"refresh\" content=\"0; url=%defaultBranch%/\"></head></html>"

/-- `writeRedirectFile` (cli.js lines 255–262): replace every occurrence
of `%defaultBranch%` in the redirect asset with the default branch
name, the name going through JS GetSubstitution. -/
def redirectContent (b : String) : String :=
  String.mk (replaceAllL ("%defaultBranch%".data) b.data redirectAsset.data)

/-- Literal global substitution, without JS `$`-expansion (same fuel
structure as `replaceAllFuel`). -/
def replaceAllLitFuel (pat repl : List Char) : Nat → List Char → List Char
  | 0, l => l
  | Nat.succ n, l =>
    match l with
    | [] => []
    | c :: cs =>
      if pat.isPrefixOf (c :: cs) ∧ 1 ≤ pat.length then
        repl ++ replaceAllLitFuel pat repl n ((c :: cs).drop pat.length)
      else
        c :: replaceAllLitFuel pat repl n cs

/-- Literal global substitution, without JS `$`-expansion. -/
def replaceAllLitL (pat repl content : List Char) : List Char :=
  replaceAllLitFuel pat repl content.length content

/-- Follows the spec's words (refinement reference, not the code): "the
redirect page uses a single literal placeholder token substituted with
the default branch name" — plain textual substitution of the name for
each `%defaultBranch%`.  A redirect page "points to" branch `b` exactly
when it equals `redirectContentSpec b`, since `b`'s artifact lives in
the subdirectory literally named `b`. -/
def redirectContentSpec (b : String) : String :=
  String.mk (replaceAllLitL ("%defaultBranch%".data) b.data redirectAsset.data)

/-- The customized inject snippet of `writeModifiedIndexFile`
(cli.js lines 265–271). -/
def injectedSnippet (branch : String) (branches : List String) : String :=
  String.mk (replaceFirstL ("const branches = [];".data) (assignL branches)
    (replaceFirstL ("const branch = null;".data)
      (("const branch = \"").data ++ branch.data ++ ("\";").data)
      injectAsset.data))

/-- `writeModifiedIndexFile`'s rewrite of the entry page (cli.js lines
273–276): insert the snippet before the first `</body>`. -/
def injectIndex (content : String) (branch : String) (branches : List String) : String :=
  String.mk (replaceFirstL ("</body>".data)
    ((injectedSnippet branch branches).data ++ ("</body>").data) content.data)

/-! ## Per-branch output directory and the build (`doBuild`, cli.js 188–243) -/

/-- One branch's output directory `<output>/storybooks/<branch>`:
the `.head` marker file and the `index.html` entry page. -/
structure BranchDir where
  marker : Option String
  page : Option String
deriving DecidableEq, Repr

/-- A fresh directory as created by `mkdirp`. -/
def emptyDir : BranchDir := { marker := none, page := none }

/-- The `.head` marker of a possibly-absent directory. -/
def markerOf (d : Option BranchDir) : Option String := d.bind (·.marker)

/-- The entry page of a possibly-absent directory. -/
def pageOf (d : Option BranchDir) : Option String := d.bind (·.page)

/-- Which step of `doBuild` threw. -/
inductive BuildErr
  | install
  | readPkg
  | hook
  | builder
  | relocate
  | injectRead
deriving DecidableEq, Repr

/-- Oracle for the external effects of one `doBuild` run: presence of
the `.storybook` config, outcomes of the spawned commands, the
`package.json` read (`some hasHook` reports whether a
`pre-build-storybook` script is declared, `none` means the read
threw), presence of the
`build-storybook` binary, whether the tool wrote relative to the
checkout (`wrongOut`) and whether relocation succeeded, and the
`index.html` content the build left in the output directory
(`none`: no entry page, so the injection read fails with ENOENT). -/
structure BuildEnv where
  configExists : Bool
  installOk : Bool
  pkg : Option Bool
  hookOk : Bool
  builderFound : Bool
  builderOk : Bool
  wrongOut : Bool
  relocateOk : Bool
  builtPage : Option String
deriving DecidableEq, Repr

/-- Result of one `doBuild` run: the exception (if one was thrown), the
final state of the branch's output directory, whether the external
build tool was invoked, and whether the gate let the build proceed
(the marker write and the build steps were started). -/
structure BuildResult where
  err : Option BuildErr
  dir : Option BranchDir
  invoked : Bool
  attempted : Bool
deriving DecidableEq, Repr

/-- The Build Gate (cli.js lines 195–206): up to date iff the `.head`
file exists and its trimmed content equals the current head id. -/
def gateUpToDate (d0 : Option BranchDir) (head : String) : Bool :=
  match d0 with
  | some d =>
    match d.marker with
    | some m => strTrim m == head
    | none => false
  | none => false

/-- `doBuild` (cli.js lines 188–243).  Note the order in the source: the
`.head` marker is written (line 209) right after `mkdirp`, before
`yarn install`, the pre-build hook, the `build-storybook` invocation,
the relocation and the entry-page injection. -/
def doBuild (env : BuildEnv) (head branch : String) (branches : List String)
    (d0 : Option BranchDir) : BuildResult :=
  if env.configExists = false then
    { err := none, dir := d0, invoked := false, attempted := false }
  else if gateUpToDate d0 head then
    { err := none, dir := d0, invoked := false, attempted := false }
  else
    let d1 : BranchDir := { d0.getD emptyDir with marker := some head }
    if env.installOk = false then
      { err := some .install, dir := some d1, invoked := false, attempted := true }
    else
      match env.pkg with
      | none =>
        { err := some .readPkg, dir := some d1, invoked := false, attempted := true }
      | some hasHook =>
        if hasHook && !env.hookOk then
          { err := some .hook, dir := some d1, invoked := false, attempted := true }
        else if env.builderFound = false then
          { err := none, dir := some d1, invoked := false, attempted := true }
        else if env.builderOk = false then
          { err := some .builder, dir := some d1, invoked := true, attempted := true }
        else if env.wrongOut && !env.relocateOk then
          { err := some .relocate, dir := some d1, invoked := true, attempted := true }
        else
          match env.builtPage with
          | none =>
            { err := some .injectRead, dir := some d1, invoked := true, attempted := true }
          | some p =>
            { err := none,
              dir := some { d1 with page := some (injectIndex p branch branches) },
              invoked := true, attempted := true }

/-- `build` (cli.js lines 180–186): run `doBuild`, catch any exception
(log and continue); only the state and the invocation are observable. -/
def build (env : BuildEnv) (head branch : String) (branches : List String)
    (d0 : Option BranchDir) : Option BranchDir × Bool :=
  let r := doBuild env head branch branches d0
  (r.dir, r.invoked)

instance (c : String) (bs : List String) : Decidable (embeddedBranches c bs) :=
  List.decidableInfix _ _

/-- The leftmost occurrence of `const branches = [` in the page is the
injected assignment itself: no occurrence starts inside `pre`.  (The
regex match window at a position inside `pre` only reads `pre` followed
by the first `patOpen.length` characters of the assignment, hence the
formulation over `pre ++ patOpen`.) -/
def noEarlyPat (pre : List Char) : Prop :=
  ∀ i, i < pre.length → patOpen.isPrefixOf ((pre ++ patOpen).drop i) = false

/-! ## The output root `<output>/storybooks` as a map from branch name
to output directory (`none`: the directory does not exist) -/

/-- The storybooks directory, at branch granularity. -/
def Fsm : Type := String → Option BranchDir

/-- Point update of the map. -/
def fsSet (fs : Fsm) (k : String) (v : Option BranchDir) : Fsm :=
  fun b => if b = k then v else fs b

/-- `p` is a path prefix of `q`: the directory `<dir>/q` lies inside
the subtree rooted at `<dir>/p` (it is `<dir>/p` itself, or `q` extends
`p` by `/`-separated segments). -/
def isPathPrefix (p q : String) : Bool :=
  p == q || (p.data ++ ['/']).isPrefixOf q.data

/-- The effect of fs-extra's recursive `remove(join(dir, p))` on the
branch-keyed map: every branch directory inside the removed subtree
disappears, i.e. every key that `p` is a path prefix of. -/
def fsErase (fs : Fsm) (p : String) : Fsm :=
  fun q => if isPathPrefix p q then none else fs q

/-- The content of `<branch>/index.html`, when the directory and the
entry page both exist. -/
def pageAt (fs : Fsm) (b : String) : Option String := (fs b).bind (·.page)

/-- A filesystem error as observed via its `code` property:
`ENOENT` or anything else. -/
inductive FsError
  | enoent
  | other (msg : String)
deriving DecidableEq, Repr

/-- Does the error take the non-ENOENT (warn-logging) branch? -/
def isOtherErr : Option FsError → Bool
  | some (.other _) => true
  | _ => false

/-! ## `removeDeletedBranches` (cli.js lines 279–294)

For each previously-seen branch absent from the current list, call
`remove` on its output directory; on an error with code ENOENT continue
silently, on any other error log a warning and continue.  The oracle
`remErr` gives the outcome of `remove` per branch name. -/

/-- Result of the deletion pass: the updated filesystem, the branches
for which `remove` was called, and the branches for which a warning was
logged. -/
structure RemOut where
  fs : Fsm
  calls : List String
  warns : List String

/-- The loop body of `removeDeletedBranches`, iterating over the
previous cycle's branch list. -/
def removePassGo (cur : List String) (remErr : String → Option FsError) :
    List String → Fsm → RemOut
  | [], fs => { fs := fs, calls := [], warns := [] }
  | p :: rest, fs =>
    if cur.contains p then removePassGo cur remErr rest fs
    else
      match remErr p with
      | none =>
        let o := removePassGo cur remErr rest (fsErase fs p)
        { fs := o.fs, calls := p :: o.calls, warns := o.warns }
      | some .enoent =>
        let o := removePassGo cur remErr rest fs
        { fs := o.fs, calls := p :: o.calls, warns := o.warns }
      | some (.other _) =>
        let o := removePassGo cur remErr rest fs
        { fs := o.fs, calls := p :: o.calls, warns := p :: o.warns }

/-- `removeDeletedBranches(output, branches, previousBranches)`. -/
def removePass (fs : Fsm) (cur prev : List String) (remErr : String → Option FsError) :
    RemOut :=
  removePassGo cur remErr prev fs

/-! ## `fixInjectedBranches` (cli.js lines 296–313)

For each currently live branch, read `<branch>/index.html`, replace the
embedded branch-list assignment and write the file back; an ENOENT
(missing directory or page) is skipped silently, any other read/write
error is logged as a warning; nothing is fatal.  The oracle `fixErr`
injects read/write failures per branch name. -/

/-- One iteration of the `fixInjectedBranches` loop: the updated
filesystem and the warning log (the branch's name, if warned). -/
def fixStep (fixErr : String → Option FsError) (cur : List String) (fs : Fsm)
    (b : String) : Fsm × List String :=
  match fs b with
  | none => (fs, [])
  | some d =>
    match d.page with
    | none => (fs, [])
    | some c =>
      match fixErr b with
      | none =>
        (fsSet fs b (some { d with page := some (fixInjectedContent c cur) }), [])
      | some .enoent => (fs, [])
      | some (.other _) => (fs, [b])

/-- The loop of `fixInjectedBranches` over a list of branches. -/
def fixPassGo (fixErr : String → Option FsError) (cur : List String) :
    List String → Fsm → Fsm × List String
  | [], fs => (fs, [])
  | b :: rest, fs =>
    ((fixPassGo fixErr cur rest (fixStep fixErr cur fs b).1).1,
     (fixStep fixErr cur fs b).2
       ++ (fixPassGo fixErr cur rest (fixStep fixErr cur fs b).1).2)

/-- `fixInjectedBranches(output, branches)`: the loop runs over the
current branch list itself. -/
def fixPass (fixErr : String → Option FsError) (cur : List String) (fs : Fsm) :
    Fsm × List String :=
  fixPassGo fixErr cur cur fs

/-! ## The build loop (`runBuildLoop`, cli.js lines 131–178)

Each poll cycle: enumerate the branches (one `BranchTask` per reported
branch, in Enumerator order, carrying its head id and its `doBuild`
oracle), run `build` for each against the shared output root, update the
default branch and the redirect page, delete the output of disappeared
branches, re-fix the injected branch lists, and store the branch list as
the new previous snapshot. -/

/-- One enumerated branch in one cycle. -/
structure BranchTask where
  branch : String
  head : String
  env : BuildEnv
deriving DecidableEq

/-- Per-cycle input: the enumerated branches plus the filesystem fault
oracles for the deletion and re-fix passes. -/
structure CycleIn where
  tasks : List BranchTask
  remErr : String → Option FsError
  fixErr : String → Option FsError

/-- `refs.map(ref => ref.branch)` — the cycle's branch-name list. -/
def cycleNames (ci : CycleIn) : List String := ci.tasks.map (·.branch)

/-- State owned by `runBuildLoop` across cycles. -/
structure LoopState where
  fs : Fsm
  prev : List String
  dflt : String
  redirect : String

/-- Observable per-cycle log: branches whose directories `remove` was
called on, and the warnings of the two housekeeping passes. -/
structure CycleLog where
  deletedCalls : List String
  remWarns : List String
  fixWarns : List String

/-- The per-branch build phase of one cycle (the `forEachBranch`
callback, cli.js lines 150–158): each branch's `build` runs in order
against its own output directory; errors are already swallowed inside
`build`. -/
def runBuilds (nm : List String) : List BranchTask → Fsm → Fsm
  | [], fs => fs
  | t :: rest, fs =>
    runBuilds nm rest
      (fsSet fs t.branch (build t.env t.head t.branch nm (fs t.branch)).1)

/-- The filesystem right after the build phase of a cycle. -/
def cycleBuildFs (st : LoopState) (ci : CycleIn) : Fsm :=
  runBuilds (cycleNames ci) ci.tasks st.fs

/-- The default-branch update (cli.js lines 161–165): if branches exist
and the default is not among them, the first branch becomes the default
and the redirect page is rewritten. -/
def defaultStep (cur : List String) (dflt redirect : String) : String × String × Bool :=
  if cur.length != 0 && !cur.contains dflt then
    (cur.headD dflt, redirectContent (cur.headD dflt), true)
  else
    (dflt, redirect, false)

/-- One cycle of `runBuildLoop` (cli.js lines 149–177): builds, default
update, deletion pass, re-fix pass, snapshot replacement. -/
def runCycle (st : LoopState) (ci : CycleIn) : LoopState × CycleLog :=
  let nm := cycleNames ci
  let fs1 := cycleBuildFs st ci
  let dres := defaultStep nm st.dflt st.redirect
  let ro := removePass fs1 nm st.prev ci.remErr
  let fo := fixPass ci.fixErr nm ro.fs
  ({ fs := fo.1, prev := nm, dflt := dres.1, redirect := dres.2.1 },
   { deletedCalls := ro.calls, remWarns := ro.warns, fixWarns := fo.2 })

/-- The build loop over a list of cycles, starting from a given state
(at process start `prev = []`, cli.js line 147). -/
def runLoop (st : LoopState) : List CycleIn → LoopState × List CycleLog
  | [] => (st, [])
  | ci :: rest =>
    ((runLoop (runCycle st ci).1 rest).1,
     (runCycle st ci).2 :: (runLoop (runCycle st ci).1 rest).2)

/-! ## The HTTP server (`startServer`, cli.js lines 349–407)

The served directory is given as its absolute path's segments; the
request is its URL pathname (`parse(req.url).pathname`, no decoding).
`path.resolve(dir, "./" + pathname)` is modelled by segment
normalization (`.` and empty segments skipped, `..` pops, clamped at
the filesystem root), and the filesystem under the server is an oracle
mapping resolved path strings to nodes plus a `readFile` oracle. -/

/-- JS `s.startsWith(pre)`. -/
def strStartsWith (s pre : String) : Bool := pre.data.isPrefixOf s.data

/-- JS `s.endsWith(suf)`. -/
def strEndsWith (s suf : String) : Bool := suf.data.isSuffixOf s.data

/-- Split a character list on `/` (JS `s.split("/")` semantics). -/
def splitSlash : List Char → List (List Char)
  | [] => [[]]
  | c :: cs =>
    match splitSlash cs with
    | [] => [[]]
    | s :: rest => if c = '/' then [] :: s :: rest else (c :: s) :: rest

/-- Join segments with `/`. -/
def joinSlash : List (List Char) → List Char
  | [] => []
  | [s] => s
  | s :: s2 :: rest => s ++ '/' :: joinSlash (s2 :: rest)

/-- Path normalization of `path.resolve`: empty and `.` segments are
dropped, `..` pops the last accumulated segment (clamped at root). -/
def normSegs (acc : List (List Char)) : List (List Char) → List (List Char)
  | [] => acc
  | s :: rest =>
    if s = [] ∨ s = ['.'] then normSegs acc rest
    else if s = ['.', '.'] then normSegs acc.dropLast rest
    else normSegs (acc ++ [s]) rest

/-- The absolute path of the served directory (`resolve(dir)`). -/
def rootStr (dirSegs : List String) : String :=
  String.mk ('/' :: joinSlash (dirSegs.map (·.data)))

/-- `path.resolve(dir, rel)` for a relative `rel` against the absolute
served directory. -/
def resolveUnder (dirSegs : List String) (rel : String) : String :=
  String.mk ('/' :: joinSlash (normSegs (dirSegs.map (·.data)) (splitSlash rel.data)))

/-- cli.js lines 366–371: canonicalize `"./" + url.pathname` against the
served directory; if the result does not start with `resolve(dir) + "/"`
fall back to that prefix itself. -/
def servedPath (dirSegs : List String) (pathname : String) : String :=
  let lp := resolveUnder dirSegs ("./" ++ pathname)
  let root := rootStr dirSegs ++ "/"
  if strStartsWith lp root then lp else root

/-- The MIME table (cli.js lines 351–361). -/
def mimeType : List (String × String) :=
  [(".ico", "image/x-icon"), (".htm", "text/html"), (".html", "text/html"),
   (".js", "text/javascript"), (".json", "application/json"), (".css", "text/css"),
   (".png", "image/png"), (".jpg", "image/jpeg"), (".svg", "image/svg+xml")]

/-- `mimeType[ext]` — `none` when the extension is not a key. -/
def mimeLookup (ext : String) : Option String :=
  (mimeType.find? (fun q => q.1 == ext)).map (·.2)

/-- The suffix of a name starting at its last `.`, if any. -/
def lastDotSuffix : List Char → Option (List Char)
  | [] => none
  | c :: cs =>
    match lastDotSuffix cs with
    | some s => some s
    | none => if c = '.' then some (c :: cs) else none

/-- The basename of a path (text after the last `/`). -/
def baseNameOf (p : String) : String := String.mk ((splitSlash p.data).getLastD [])

/-- Node `path.parse(p).ext`: the basename's suffix from its last `.`,
empty when there is no `.` past the first character (dotfiles and the
special names `.`/`..` have no extension). -/
def extOf (p : String) : String :=
  let base := baseNameOf p
  if base = "." || base = ".." then ""
  else
    match base.data with
    | [] => ""
    | _ :: cs =>
      match lastDotSuffix cs with
      | some s => String.mk s
      | none => ""

/-- A node of the filesystem seen by the server. -/
inductive FsNode
  | dir
  | file
deriving DecidableEq, Repr

/-- The filesystem oracle of the server: `node` models
`exists`/`statSync`, `readF` models `fs.readFile` (error or data). -/
structure ServerFs where
  node : String → Option FsNode
  readF : String → Except String String

/-- The observable response: status code, `Location` and `Content-type`
headers, body, and the local path passed to `fs.readFile` (if any). -/
structure HttpResponse where
  status : Nat
  location : Option String
  contentType : Option String
  body : Option String
  readFrom : Option String
deriving DecidableEq, Repr

/-- cli.js lines 386–396: compute the extension, read the file; a read
error yields 500, otherwise 200 with the MIME type (or `text/plain`). -/
def serveFile (sfs : ServerFs) (p : String) : HttpResponse :=
  match sfs.readF p with
  | .error _ =>
    { status := 500, location := none, contentType := none,
      body := some "Error reading file!", readFrom := some p }
  | .ok data =>
    { status := 200, location := none,
      contentType := some ((mimeLookup (extOf p)).getD "text/plain"),
      body := some data, readFrom := some p }

/-- The request handler (cli.js lines 363–401): resolve and guard the
local path; missing → 404; a directory without trailing slash → 301 to
`pathname + "/"`; a directory with trailing slash serves its
`index.html`; otherwise serve the file. -/
def handleRequest (sfs : ServerFs) (dirSegs : List String) (pathname : String) :
    HttpResponse :=
  let lp := servedPath dirSegs pathname
  match sfs.node lp with
  | none =>
    { status := 404, location := none, contentType := none,
      body := some "File not found!", readFrom := none }
  | some .dir =>
    if !strEndsWith pathname "/" then
      { status := 301, location := some (pathname ++ "/"), contentType := none,
        body := none, readFrom := none }
    else
      serveFile sfs (lp ++ "/index.html")
  | some .file => serveFile sfs lp

/-- `true` iff the path (when present) starts with the given root. -/
def optWithin (o : Option String) (root : String) : Bool :=
  match o with
  | none => true
  | some p => strStartsWith p root

/-! ## Concrete instances used by counterexamples and witnesses -/

/-- A build environment where everything succeeds. -/
def envAllOk : BuildEnv where
  configExists := true
  installOk := true
  pkg := some false
  hookOk := true
  builderFound := true
  builderOk := true
  wrongOut := false
  relocateOk := true
  builtPage := some "<body></body>"

/-- A build environment where `yarn install` fails. -/
def envInstallFail : BuildEnv where
  configExists := true
  installOk := false
  pkg := some false
  hookOk := true
  builderFound := true
  builderOk := true
  wrongOut := false
  relocateOk := true
  builtPage := some "<body></body>"

/-- A directory previously built at head `h0`. -/
def dirPrev : Option BranchDir := some { marker := some "h0", page := none }

/-- An output root whose only branch is named `x]` with the page its own
initial injection produced (`const branches = ["x]"];`). -/
def fsBracket : Fsm :=
  fun b =>
    if b = "x]" then some { marker := some "h0", page := some (branchesAssign ["x]"]) }
    else none

/-- An output root with a well-injected page for branch `main`. -/
def fsPlain : Fsm :=
  fun b =>
    if b = "main" then some { marker := some "h0", page := some (branchesAssign ["main"]) }
    else none

/-- An output root holding directories `main` and `feat-a`. -/
def fsTwo : Fsm :=
  fun b => if b = "main" ∨ b = "feat-a" then some emptyDir else none

/-- An output root holding directories (with pages) `a`, `b`, `c`. -/
def fsABC : Fsm :=
  fun b =>
    if b = "a" ∨ b = "b" ∨ b = "c" then some { marker := none, page := some "PAGE" }
    else none

/-- Filesystem faults: ENOENT on `a`, `EACCES` on `b`, success elsewhere. -/
def errABC : String → Option FsError :=
  fun b =>
    if b = "a" then some .enoent
    else if b = "b" then some (.other "EACCES") else none

/-- A cycle reporting branches `bad` (whose install fails at head `h1`)
and `good` (all steps fine at head `h2`), with no filesystem faults. -/
def cycleC5 : CycleIn where
  tasks := [⟨"bad", "h1", envInstallFail⟩, ⟨"good", "h2", envAllOk⟩]
  remErr := fun _ => none
  fixErr := fun _ => none

/-- Loop state before `cycleC5`: only a stale directory `stale` exists
and the previous snapshot is `["stale"]`. -/
def stC5 : LoopState where
  fs := fun b => if b = "stale" then some emptyDir else none
  prev := ["stale"]
  dflt := "good"
  redirect := ""

/-- A cycle reporting only branch `m`, with no filesystem faults. -/
def cycleM : CycleIn where
  tasks := [⟨"m", "h1", envAllOk⟩]
  remErr := fun _ => none
  fixErr := fun _ => none

/-- An output root left over by an earlier process run: it still holds a
directory for `orphan`, a branch that no longer exists upstream. -/
def fsOrphan : Fsm :=
  fun b => if b = "orphan" then some emptyDir else none

/-- An output root holding directories `feature` and `feature/x`. -/
def fsNested : Fsm :=
  fun b => if b = "feature" ∨ b = "feature/x" then some emptyDir else none

/-- A cycle reporting only branch `x`, with no filesystem faults. -/
def cycleX : CycleIn where
  tasks := [⟨"x", "h1", envAllOk⟩]
  remErr := fun _ => none
  fixErr := fun _ => none

/-- A cycle reporting only branch `z`, with no filesystem faults. -/
def cycleZ : CycleIn where
  tasks := [⟨"z", "h1", envAllOk⟩]
  remErr := fun _ => none
  fixErr := fun _ => none

/-- An output root left over by an earlier process run: it still holds
the nested directory `x/y`, for a branch that no longer exists
upstream. -/
def fsOrphanNested : Fsm :=
  fun b => if b = "x/y" then some emptyDir else none

/-- A served tree under root `/r`: a directory `d`, a readable file `f`,
and a file `g` whose read fails. -/
def sfsW : ServerFs where
  node := fun p =>
    if p = "/r/d" then some .dir
    else if p = "/r/f" ∨ p = "/r/g" then some .file
    else none
  readF := fun p => if p = "/r/f" then .ok "DATA" else .error "EIO"

/-! ## Theorems -/

/-! ## Lemmas about the re-fix rewrite -/

theorem isPrefixOf_append_of_le {α : Type} [BEq α] (p A B : List α)
    (h : p.length ≤ A.length) : p.isPrefixOf (A ++ B) = p.isPrefixOf A := by
  induction p generalizing A with
  | nil => simp [List.isPrefixOf]
  | cons c p ih =>
    cases A with
    | nil => simp at h
    | cons a A =>
      simp only [List.cons_append, List.isPrefixOf, List.length_cons, List.append_eq] at *
      rw [ih A (Nat.le_of_succ_le_succ h)]

theorem isPrefixOf_self_append {α : Type} [BEq α] [LawfulBEq α] (l t : List α) :
    l.isPrefixOf (l ++ t) = true := by
  rw [List.isPrefixOf_iff_prefix]
  exact List.prefix_append l t

theorem quoteName_no_bracket (b : String) (h : ']' ∉ b.data) : ']' ∉ quoteName b := by
  intro hc
  rcases List.mem_cons.mp hc with hc | hc
  · exact absurd hc (by decide)
  · rcases List.mem_append.mp hc with hc | hc
    · exact h hc
    · rcases List.mem_singleton.mp hc with hc
      exact absurd hc (by decide)

/-- No `]` occurs among the characters of the rendered branch list when
no branch name contains `]`. -/
theorem renderL_no_bracket (bs : List String) (h : ∀ b ∈ bs, ']' ∉ b.data) :
    ']' ∉ renderL bs := by
  induction bs with
  | nil => simp [renderL]
  | cons b rest ih =>
    cases rest with
    | nil => exact quoteName_no_bracket b (h b (by simp))
    | cons b2 rest2 =>
      intro hc
      rw [renderL] at hc
      rcases List.mem_append.mp hc with hc | hc
      · exact quoteName_no_bracket b (h b (by simp)) hc
      · rcases List.mem_cons.mp hc with hc | hc
        · exact absurd hc (by decide)
        · exact ih (fun x hx => h x (by simp [hx])) hc

theorem scanClose_append (mid rest : List Char) (h : ']' ∉ mid) :
    scanClose (mid ++ ']' :: ';' :: rest) = some (mid, rest) := by
  induction mid with
  | nil => simp [scanClose]
  | cons c cs ih =>
    have hc : c ≠ ']' := fun e => h (e ▸ List.mem_cons_self c cs)
    simp only [List.cons_append, scanClose, if_neg hc, List.append_eq]
    rw [ih (fun hx => h (List.mem_cons_of_mem c hx))]

/-- The regex matches at the start of `assignL old ++ post`, consuming
exactly the assignment, provided no name in `old` contains `]`. -/
theorem matchAt_assign (old : List String) (post : List Char)
    (h : ∀ b ∈ old, ']' ∉ b.data) :
    matchAt (assignL old ++ post) = some (assignL old, post) := by
  have hpre : patOpen.isPrefixOf (assignL old ++ post) = true := by
    have : assignL old ++ post = patOpen ++ ((renderL old ++ [']', ';']) ++ post) := by
      simp [assignL, List.append_assoc]
    rw [this, isPrefixOf_self_append]
  have hdrop : (assignL old ++ post).drop patOpen.length
      = renderL old ++ ']' :: ';' :: post := by
    have : assignL old ++ post = patOpen ++ (renderL old ++ ']' :: ';' :: post) := by
      simp [assignL, List.append_assoc]
    rw [this, List.drop_left]
  rw [matchAt, if_pos hpre, hdrop, scanClose_append _ _ (renderL_no_bracket old h)]
  rfl

theorem noEarlyPat_nil : noEarlyPat [] := by
  intro i hi
  simp at hi

theorem noEarlyPat_of_cons {c : Char} {pre : List Char} (h : noEarlyPat (c :: pre)) :
    noEarlyPat pre := by
  intro i hi
  have := h (i + 1) (by simpa using Nat.succ_lt_succ hi)
  simpa using this

theorem matchAt_nil : matchAt [] = none := by
  rw [matchAt]
  have : patOpen.isPrefixOf ([] : List Char) = false := by decide
  rw [this]
  simp

/-- GetSubstitution is the identity on an escape-free replacement. -/
theorem noExpand_expand (m b a : List Char) :
    ∀ l, noExpand l = true → expandDollar m b a l = l := by
  intro l
  induction l with
  | nil => intro _; rfl
  | cons c cs ih =>
    cases cs with
    | nil => intro _; rfl
    | cons c2 rest =>
      intro h
      rw [noExpand] at h
      rw [expandDollar]
      by_cases hc : c = '$'
      · by_cases h2 : c2 = '$' ∨ c2 = '&' ∨ c2 = backquoteChar ∨ c2 = singleQuoteChar
        · rw [if_pos ⟨hc, h2⟩] at h
          cases h
        · rw [if_neg (fun hand => h2 hand.2)] at h
          have h2a : ¬ c2 = '$' := fun hx => h2 (Or.inl hx)
          have h2b : ¬ c2 = '&' := fun hx => h2 (Or.inr (Or.inl hx))
          have h2c : ¬ c2 = backquoteChar := fun hx => h2 (Or.inr (Or.inr (Or.inl hx)))
          have h2d : ¬ c2 = singleQuoteChar := fun hx => h2 (Or.inr (Or.inr (Or.inr hx)))
          rw [if_pos hc, if_neg h2a, if_neg h2b, if_neg h2c, if_neg h2d, ih h]
      · rw [if_neg (fun hand => hc hand.1)] at h
        rw [if_neg hc, ih h]

theorem replaceBranchesAssignAux_of_some {repl seen content matched rest : List Char}
    (h : matchAt content = some (matched, rest)) :
    replaceBranchesAssignAux repl seen content
      = expandDollar matched seen.reverse rest repl ++ rest := by
  cases content with
  | nil => rw [matchAt_nil] at h; cases h
  | cons c cs =>
    simp only [replaceBranchesAssignAux]
    rw [h]

theorem replaceBranchesAssignAux_of_none {repl seen : List Char} {c : Char}
    {cs : List Char} (h : matchAt (c :: cs) = none) :
    replaceBranchesAssignAux repl seen (c :: cs)
      = c :: replaceBranchesAssignAux repl (c :: seen) cs := by
  simp only [replaceBranchesAssignAux]
  rw [h]

/-- Core correctness of the `fixInjectedBranches` rewrite: on a page of
the form `pre ++ (const branches = [...];) ++ post` whose embedded names
contain no `]` and whose leftmost `const branches = [` occurrence is the
injected one, and for a replacement free of JS `$`-escapes, the rewrite
replaces exactly the assignment, wherever the scan started. -/
theorem replace_assign (r post : List Char) (old : List String)
    (hold : ∀ b ∈ old, ']' ∉ b.data) (hr : noExpand r = true) :
    ∀ (pre seen : List Char), noEarlyPat pre →
      replaceBranchesAssignAux r seen (pre ++ (assignL old ++ post))
        = pre ++ (r ++ post) := by
  intro pre
  induction pre with
  | nil =>
    intro seen _
    simp only [List.nil_append]
    rw [replaceBranchesAssignAux_of_some (matchAt_assign old post hold),
      noExpand_expand _ _ _ r hr]
  | cons c cs ih =>
    intro seen hpre
    have hmiss : patOpen.isPrefixOf (c :: cs ++ (assignL old ++ post)) = false := by
      have hsplit : c :: cs ++ (assignL old ++ post)
          = ((c :: cs) ++ patOpen) ++ ((renderL old ++ [']', ';']) ++ post) := by
        simp [assignL, List.append_assoc]
      rw [hsplit, isPrefixOf_append_of_le _ _ _ (by simp; omega)]
      have := hpre 0 (by simp)
      simpa using this
    have hnone : matchAt (c :: cs ++ (assignL old ++ post)) = none := by
      rw [matchAt, hmiss]
      simp
    simp only [List.cons_append] at hnone ⊢
    rw [replaceBranchesAssignAux_of_none hnone]
    exact congrArg (c :: ·) (ih (c :: seen) (noEarlyPat_of_cons hpre))

/-- `fixInjectedContent` on a well-injected page, when the rendered new
assignment is free of JS `$`-escapes. -/
theorem fixInjectedContent_eq (pre post : List Char) (old new : List String)
    (hpre : noEarlyPat pre) (hold : ∀ b ∈ old, ']' ∉ b.data)
    (hnew : noExpand (assignL new) = true) :
    fixInjectedContent (String.mk (pre ++ (assignL old ++ post))) new
      = String.mk (pre ++ (assignL new ++ post)) := by
  rw [fixInjectedContent]
  exact congrArg String.mk (replace_assign (assignL new) post old hold hnew pre [] hpre)

theorem fsSet_same (fs : Fsm) (k : String) (v : Option BranchDir) :
    fsSet fs k v k = v := by
  simp [fsSet]

theorem fsSet_other (fs : Fsm) (k b : String) (v : Option BranchDir) (h : b ≠ k) :
    fsSet fs k v b = fs b := by
  simp [fsSet, h]

theorem isPathPrefix_self (p : String) : isPathPrefix p p = true := by
  simp [isPathPrefix]

theorem fsErase_within (fs : Fsm) (p q : String) (h : isPathPrefix p q = true) :
    fsErase fs p q = none := by
  simp [fsErase, h]

theorem fsErase_outside (fs : Fsm) (p q : String) (h : isPathPrefix p q = false) :
    fsErase fs p q = fs q := by
  simp [fsErase, h]

/-- `remove` is called for exactly the branches of the previous
snapshot that are absent from the current one, in order. -/
theorem removePass_calls (fs : Fsm) (cur prev : List String) (remErr) :
    (removePass fs cur prev remErr).calls = prev.filter (fun p => !cur.contains p) := by
  induction prev generalizing fs with
  | nil => rfl
  | cons p rest ih =>
    simp only [removePass] at ih ⊢
    rw [removePassGo]
    by_cases hc : p ∈ cur
    · simp [hc, List.filter_cons, ih fs]
    · cases h : remErr p with
      | none => simp [hc, List.filter_cons, ih (fsErase fs p)]
      | some e => cases e <;> simp [hc, List.filter_cons, ih fs]

/-- A warning is logged exactly for the processed branches whose
`remove` failed with a non-ENOENT error; ENOENT failures are silent. -/
theorem removePass_warns (fs : Fsm) (cur prev : List String) (remErr) :
    (removePass fs cur prev remErr).warns
      = prev.filter (fun p => !cur.contains p && isOtherErr (remErr p)) := by
  induction prev generalizing fs with
  | nil => rfl
  | cons p rest ih =>
    simp only [removePass] at ih ⊢
    rw [removePassGo]
    by_cases hc : p ∈ cur
    · simp [hc, List.filter_cons, ih fs]
    · cases h : remErr p with
      | none => simp [hc, h, isOtherErr, List.filter_cons, ih (fsErase fs p)]
      | some e => cases e <;> simp [hc, h, isOtherErr, List.filter_cons, ih fs]

/-- Effect of the deletion pass on each directory: the directory of `b`
disappears iff some branch of the previous snapshot that is absent from
the current one is a path prefix of `b` and its recursive `remove`
succeeded; all other directories are untouched. -/
theorem removePass_fs (fs : Fsm) (cur prev : List String) (remErr) (b : String) :
    (removePass fs cur prev remErr).fs b
      = if prev.any (fun p => !cur.contains p && isPathPrefix p b && (remErr p).isNone)
        then none else fs b := by
  induction prev generalizing fs with
  | nil => simp [removePass, removePassGo]
  | cons p rest ih =>
    simp only [removePass] at ih ⊢
    rw [removePassGo]
    by_cases hc : p ∈ cur
    · simp [hc, ih fs, List.any_cons]
    · cases h : remErr p with
      | none =>
        by_cases hpb : isPathPrefix p b = true
        · simp [hc, h, hpb, ih (fsErase fs p), fsErase_within fs p b hpb, List.any_cons]
        · have hpb2 : isPathPrefix p b = false := by
            revert hpb
            cases isPathPrefix p b <;> simp
          simp [hc, h, hpb2, ih (fsErase fs p), fsErase_outside fs p b hpb2,
            List.any_cons]
      | some e => cases e <;> simp [hc, h, ih fs, List.any_cons]

theorem fixStep_eq_nodir (fixErr) (cur) (fs : Fsm) (b : String) (hfs : fs b = none) :
    fixStep fixErr cur fs b = (fs, []) := by
  unfold fixStep
  rw [hfs]

theorem fixStep_eq_nopage (fixErr) (cur) (fs : Fsm) (b : String) (d : BranchDir)
    (hfs : fs b = some d) (hp : d.page = none) :
    fixStep fixErr cur fs b = (fs, []) := by
  unfold fixStep
  rw [hfs]
  obtain ⟨m, pg⟩ := d
  simp only at hp
  subst hp
  rfl

theorem fixStep_eq_ok (fixErr) (cur) (fs : Fsm) (b : String) (d : BranchDir) (c : String)
    (hfs : fs b = some d) (hp : d.page = some c) (he : fixErr b = none) :
    fixStep fixErr cur fs b
      = (fsSet fs b (some ⟨d.marker, some (fixInjectedContent c cur)⟩), []) := by
  unfold fixStep
  rw [hfs]
  obtain ⟨m, pg⟩ := d
  simp only at hp
  subst hp
  rw [he]

theorem fixStep_eq_enoent (fixErr) (cur) (fs : Fsm) (b : String) (d : BranchDir) (c : String)
    (hfs : fs b = some d) (hp : d.page = some c) (he : fixErr b = some .enoent) :
    fixStep fixErr cur fs b = (fs, []) := by
  unfold fixStep
  rw [hfs]
  obtain ⟨m, pg⟩ := d
  simp only at hp
  subst hp
  rw [he]

theorem fixStep_eq_other (fixErr) (cur) (fs : Fsm) (b : String) (d : BranchDir)
    (c msg : String)
    (hfs : fs b = some d) (hp : d.page = some c) (he : fixErr b = some (.other msg)) :
    fixStep fixErr cur fs b = (fs, [b]) := by
  unfold fixStep
  rw [hfs]
  obtain ⟨m, pg⟩ := d
  simp only at hp
  subst hp
  rw [he]

theorem fixStep_other (fixErr) (cur) (fs : Fsm) (b b' : String) (h : b' ≠ b) :
    (fixStep fixErr cur fs b).1 b' = fs b' := by
  cases hfs : fs b with
  | none => rw [fixStep_eq_nodir fixErr cur fs b hfs]
  | some d =>
    cases hp : d.page with
    | none => rw [fixStep_eq_nopage fixErr cur fs b d hfs hp]
    | some c =>
      cases he : fixErr b with
      | none =>
        rw [fixStep_eq_ok fixErr cur fs b d c hfs hp he]
        exact fsSet_other _ _ _ _ h
      | some e =>
        cases e with
        | enoent => rw [fixStep_eq_enoent fixErr cur fs b d c hfs hp he]
        | other msg => rw [fixStep_eq_other fixErr cur fs b d c msg hfs hp he]

/-- A fix step never creates or deletes an entry page anywhere. -/
theorem fixStep_pageIsSome (fixErr) (cur) (fs : Fsm) (b x : String) :
    (pageAt (fixStep fixErr cur fs b).1 x).isSome = (pageAt fs x).isSome := by
  by_cases hx : x = b
  · subst hx
    cases hfs : fs x with
    | none => rw [fixStep_eq_nodir fixErr cur fs x hfs]
    | some d =>
      cases hp : d.page with
      | none => rw [fixStep_eq_nopage fixErr cur fs x d hfs hp]
      | some c =>
        cases he : fixErr x with
        | none =>
          rw [fixStep_eq_ok fixErr cur fs x d c hfs hp he]
          simp [pageAt, fsSet_same, hfs, hp]
        | some e =>
          cases e with
          | enoent => rw [fixStep_eq_enoent fixErr cur fs x d c hfs hp he]
          | other msg => rw [fixStep_eq_other fixErr cur fs x d c msg hfs hp he]
  · unfold pageAt
    rw [fixStep_other fixErr cur fs b x hx]

/-- The warning log of one fix step. -/
theorem fixStep_warns (fixErr) (cur) (fs : Fsm) (b : String) :
    (fixStep fixErr cur fs b).2
      = if ((pageAt fs b).isSome && isOtherErr (fixErr b)) = true then [b] else [] := by
  cases hfs : fs b with
  | none => rw [fixStep_eq_nodir fixErr cur fs b hfs]; simp [pageAt, hfs]
  | some d =>
    cases hp : d.page with
    | none =>
      rw [fixStep_eq_nopage fixErr cur fs b d hfs hp]
      simp [pageAt, hfs, hp]
    | some c =>
      cases he : fixErr b with
      | none =>
        rw [fixStep_eq_ok fixErr cur fs b d c hfs hp he]
        simp [pageAt, hfs, hp, he, isOtherErr]
      | some e =>
        cases e with
        | enoent =>
          rw [fixStep_eq_enoent fixErr cur fs b d c hfs hp he]
          simp [pageAt, hfs, hp, he, isOtherErr]
        | other msg =>
          rw [fixStep_eq_other fixErr cur fs b d c msg hfs hp he]
          simp [pageAt, hfs, hp, he, isOtherErr]

/-- The fix pass logs a warning exactly for the processed branches whose
entry page exists and whose rewrite failed with a non-ENOENT error. -/
theorem fixPassGo_warns (fixErr) (cur l : List String) (fs : Fsm) :
    (fixPassGo fixErr cur l fs).2
      = l.filter (fun b => (pageAt fs b).isSome && isOtherErr (fixErr b)) := by
  induction l generalizing fs with
  | nil => rfl
  | cons x rest ih =>
    simp only [fixPassGo, List.filter_cons]
    have hrest : (fixPassGo fixErr cur rest (fixStep fixErr cur fs x).1).2
        = rest.filter (fun b => (pageAt fs b).isSome && isOtherErr (fixErr b)) := by
      rw [ih]
      apply List.filter_congr
      intro b _
      rw [fixStep_pageIsSome]
    rw [fixStep_warns, hrest]
    by_cases hcond : ((pageAt fs x).isSome && isOtherErr (fixErr x)) = true
    · simp [hcond]
    · simp [hcond]

/-- A branch whose rewrite fails (ENOENT or otherwise) keeps its
directory entry untouched through the whole pass. -/
theorem fixPassGo_fs_of_err (fixErr) (cur l : List String) (fs : Fsm) (b : String)
    (h : fixErr b ≠ none) :
    (fixPassGo fixErr cur l fs).1 b = fs b := by
  induction l generalizing fs with
  | nil => rfl
  | cons x rest ih =>
    simp only [fixPassGo]
    have hkeep : (fixStep fixErr cur fs x).1 b = fs b := by
      by_cases hx : b = x
      · subst hx
        cases hfs : fs b with
        | none =>
          rw [fixStep_eq_nodir fixErr cur fs b hfs]
          exact hfs
        | some d =>
          cases hp : d.page with
          | none =>
            rw [fixStep_eq_nopage fixErr cur fs b d hfs hp]
            exact hfs
          | some c =>
            cases he : fixErr b with
            | none => exact absurd he h
            | some e =>
              cases e with
              | enoent =>
                rw [fixStep_eq_enoent fixErr cur fs b d c hfs hp he]
                exact hfs
              | other msg =>
                rw [fixStep_eq_other fixErr cur fs b d c msg hfs hp he]
                exact hfs
      · exact fixStep_other fixErr cur fs x b hx
    rw [ih, hkeep]

/-- Main C2 lemma: over one fix pass, a well-injected page of any
processed branch ends up embedding exactly the pass branch list,
provided no branch name contains `]`, the rendered new assignment has
no JS `$`-escape, and the page rewrites succeed. -/
theorem fixPassGo_wellInjected (fixErr) (cur l : List String) (fs : Fsm) (b : String)
    (pre post : List Char) (old : List String)
    (hne : ∀ x, fixErr x = none)
    (hpre : noEarlyPat pre)
    (hcur : ∀ n ∈ cur, ']' ∉ n.data)
    (hexp : noExpand (assignL cur) = true)
    (hold : ∀ n ∈ old, ']' ∉ n.data)
    (hpage : pageAt fs b = some (String.mk (pre ++ (assignL old ++ post)))) :
    pageAt (fixPassGo fixErr cur l fs).1 b
      = if b ∈ l then some (String.mk (pre ++ (assignL cur ++ post)))
        else pageAt fs b := by
  induction l generalizing fs old with
  | nil => simp [fixPassGo]
  | cons x rest ih =>
    by_cases hxb : x = b
    · subst hxb
      obtain ⟨d, hd, hdp⟩ :
          ∃ d, fs x = some d ∧ d.page = some (String.mk (pre ++ (assignL old ++ post))) := by
        unfold pageAt at hpage
        cases hfs : fs x with
        | none => rw [hfs] at hpage; cases hpage
        | some d => rw [hfs] at hpage; exact ⟨d, rfl, hpage⟩
      have hpage2 : pageAt (fixStep fixErr cur fs x).1 x
          = some (String.mk (pre ++ (assignL cur ++ post))) := by
        rw [fixStep_eq_ok fixErr cur fs x d _ hd hdp (hne x)]
        simp [pageAt, fsSet_same, fixInjectedContent_eq pre post old cur hpre hold hexp]
      simp only [fixPassGo]
      rw [ih (fixStep fixErr cur fs x).1 cur hcur hpage2]
      by_cases hbr : x ∈ rest
      · simp [hbr]
      · simp [hbr, hpage2]
    · have hbx : b ≠ x := fun e => hxb e.symm
      have hkeep : pageAt (fixStep fixErr cur fs x).1 b = pageAt fs b := by
        unfold pageAt
        rw [fixStep_other fixErr cur fs x b hbx]
      simp only [fixPassGo]
      rw [ih (fixStep fixErr cur fs x).1 old hold (by rw [hkeep]; exact hpage), hkeep]
      simp [List.mem_cons, hbx, hxb]

/-- A branch that is not processed by the fix pass keeps its directory
entry untouched. -/
theorem fixPassGo_not_mem (fixErr) (cur l : List String) (fs : Fsm) (b : String)
    (h : b ∉ l) :
    (fixPassGo fixErr cur l fs).1 b = fs b := by
  induction l generalizing fs with
  | nil => rfl
  | cons x rest ih =>
    simp only [fixPassGo]
    have hbx : b ≠ x := fun e => h (e ▸ List.mem_cons_self x rest)
    rw [ih _ (fun hm => h (List.mem_cons_of_mem x hm)),
      fixStep_other fixErr cur fs x b hbx]

theorem runBuilds_not_mem (nm : List String) (tasks : List BranchTask) (fs : Fsm)
    (b : String) (h : b ∉ tasks.map (·.branch)) :
    runBuilds nm tasks fs b = fs b := by
  induction tasks generalizing fs with
  | nil => rfl
  | cons t rest ih =>
    simp only [runBuilds]
    have hbt : b ≠ t.branch := by
      intro e
      exact h (by rw [List.map_cons]; exact e ▸ List.mem_cons_self _ _)
    rw [ih _ (fun hm => h (by rw [List.map_cons]; exact List.mem_cons_of_mem _ hm)),
      fsSet_other _ _ _ _ hbt]

/-- With pairwise-distinct branch names, each branch's directory after
the build phase is exactly its own `doBuild` outcome applied to its own
prior directory — independent of every other branch's outcome. -/
theorem runBuilds_mem (nm : List String) (tasks : List BranchTask) (fs : Fsm)
    (t : BranchTask) :
    (tasks.map (·.branch)).Nodup → t ∈ tasks →
    runBuilds nm tasks fs t.branch
      = (doBuild t.env t.head t.branch nm (fs t.branch)).dir := by
  induction tasks generalizing fs with
  | nil =>
    intro _ ht
    cases ht
  | cons t0 rest ih =>
    intro hnd ht
    rw [List.map_cons] at hnd
    have h0 : t0.branch ∉ rest.map (·.branch) := (List.nodup_cons.mp hnd).1
    have hndr : (rest.map (·.branch)).Nodup := (List.nodup_cons.mp hnd).2
    simp only [runBuilds]
    rcases List.mem_cons.mp ht with he | hm
    · subst he
      rw [runBuilds_not_mem nm rest _ t.branch h0, fsSet_same]
      rfl
    · have hmm : t.branch ∈ rest.map (·.branch) := List.mem_map_of_mem _ hm
      have hne : t.branch ≠ t0.branch := fun e => h0 (e ▸ hmm)
      rw [ih _ hndr hm, fsSet_other _ _ _ _ hne]

/-- Frame property of one cycle: a name that is not reported this
cycle, and that no branch of the previous snapshot is a path prefix of,
keeps its directory untouched (deletion being recursive, the second
hypothesis is what shields `d` from the `remove` calls). -/
theorem runCycle_fs_frame (st : LoopState) (ci : CycleIn) (d : String)
    (hn : d ∉ cycleNames ci) (hp : ∀ p ∈ st.prev, isPathPrefix p d = false) :
    (runCycle st ci).1.fs d = st.fs d := by
  show (fixPass ci.fixErr (cycleNames ci)
      (removePass (cycleBuildFs st ci) (cycleNames ci) st.prev ci.remErr).fs).1 d
    = st.fs d
  rw [fixPass, fixPassGo_not_mem _ _ _ _ _ hn,
    removePass_fs (cycleBuildFs st ci) (cycleNames ci) st.prev ci.remErr d]
  have hany : (st.prev.any
      (fun p => !(cycleNames ci).contains p && isPathPrefix p d && (ci.remErr p).isNone))
      = false := by
    cases hA : st.prev.any
        (fun p => !(cycleNames ci).contains p && isPathPrefix p d && (ci.remErr p).isNone) with
    | false => rfl
    | true =>
      exfalso
      obtain ⟨p, hpm, hfp⟩ := List.any_eq_true.mp hA
      simp only [Bool.and_eq_true] at hfp
      exact absurd hfp.1.2 (by rw [hp p hpm]; exact Bool.false_ne_true)
  rw [hany]
  simp only [Bool.false_eq_true, if_false]
  exact runBuilds_not_mem _ _ _ _ (by simpa [cycleNames] using hn)

theorem runCycle_deletedCalls (st : LoopState) (ci : CycleIn) :
    (runCycle st ci).2.deletedCalls
      = st.prev.filter (fun p => !(cycleNames ci).contains p) :=
  removePass_calls _ _ _ _

theorem runCycle_prev (st : LoopState) (ci : CycleIn) :
    (runCycle st ci).1.prev = cycleNames ci := rfl

theorem runLoop_length (st : LoopState) (cs : List CycleIn) :
    (runLoop st cs).2.length = cs.length := by
  induction cs generalizing st with
  | nil => rfl
  | cons ci rest ih =>
    simp only [runLoop, List.length_cons]
    rw [ih]

theorem strStartsWith_self (s : String) : strStartsWith s s = true := by
  have := isPrefixOf_self_append s.data []
  rw [List.append_nil] at this
  exact this

theorem strStartsWith_append (s t root : String) (h : strStartsWith s root = true) :
    strStartsWith (s ++ t) root = true := by
  unfold strStartsWith at h ⊢
  rw [List.isPrefixOf_iff_prefix] at h
  have hd : (s ++ t).data = s.data ++ t.data := rfl
  rw [hd, List.isPrefixOf_iff_prefix]
  exact h.trans (List.prefix_append s.data t.data)

theorem servedPath_startsWith (dirSegs : List String) (pathname : String) :
    strStartsWith (servedPath dirSegs pathname) (rootStr dirSegs ++ "/") = true := by
  unfold servedPath
  by_cases h : strStartsWith (resolveUnder dirSegs ("./" ++ pathname))
      (rootStr dirSegs ++ "/") = true
  · simp [h]
  · simp only [Bool.not_eq_true] at h
    simp [h, strStartsWith_self]

theorem serveFile_within (sfs : ServerFs) (p root : String)
    (h : strStartsWith p root = true) :
    optWithin (serveFile sfs p).readFrom root = true := by
  unfold serveFile optWithin
  cases sfs.readF p <;> simpa using h

/-! ## Helper lemmas about `doBuild` -/

/-- With no `.storybook` configuration, `doBuild` is a no-op. -/
theorem doBuild_noconfig (env : BuildEnv) (head branch : String) (branches : List String)
    (d0 : Option BranchDir) (h : env.configExists = false) :
    doBuild env head branch branches d0
      = { err := none, dir := d0, invoked := false, attempted := false } := by
  unfold doBuild
  simp [h]

/-- When the gate reports up to date, `doBuild` is a no-op: no error, no
state change, no build-tool invocation, gate not passed. -/
theorem doBuild_skip (env : BuildEnv) (head branch : String) (branches : List String)
    (d0 : Option BranchDir) (h : gateUpToDate d0 head = true) :
    doBuild env head branch branches d0
      = { err := none, dir := d0, invoked := false, attempted := false } := by
  unfold doBuild
  by_cases hcfg : env.configExists = false
  · simp [hcfg]
  · simp [hcfg, h]

/-- Once the gate decides a build is needed, the `.head` marker holds
the current head id, whatever happens to the later build steps
(cli.js line 209 writes it before `yarn install` runs). -/
theorem doBuild_marker_stamped (env : BuildEnv) (head branch : String)
    (branches : List String) (d0 : Option BranchDir)
    (hcfg : env.configExists = true) (hg : gateUpToDate d0 head = false) :
    markerOf (doBuild env head branch branches d0).dir = some head := by
  simp only [doBuild, hcfg, hg]
  repeat' split
  all_goals simp_all [markerOf]

/-- Conversely, with configuration present and the gate not up to date,
the build steps are started. -/
theorem doBuild_attempted (env : BuildEnv) (head branch : String)
    (branches : List String) (d0 : Option BranchDir)
    (hcfg : env.configExists = true) (hg : gateUpToDate d0 head = false) :
    (doBuild env head branch branches d0).attempted = true := by
  simp only [doBuild, hcfg, hg]
  repeat' split
  all_goals simp_all

/-- A directory whose marker holds `head` (with `head` insensitive to
trimming) satisfies the gate. -/
theorem gateUpToDate_of_marker (d0 : Option BranchDir) (head : String)
    (hm : markerOf d0 = some head) (htrim : strTrim head = head) :
    gateUpToDate d0 head = true := by
  cases d0 with
  | none => simp [markerOf] at hm
  | some d =>
    obtain ⟨mk, pg⟩ := d
    simp only [markerOf, Option.bind] at hm
    subst hm
    simp [gateUpToDate, htrim]

/-- Re-running `doBuild` with an unchanged head id against the state
the first run left behind is a no-op; in particular the build tool is
not invoked a second time.  (The configuration is a property of the
checked-out commit, so an unchanged head implies an unchanged
`configExists`; the other oracle fields of the second run are free.) -/
theorem doBuild_rerun_noop (env env2 : BuildEnv) (head branch : String)
    (branches : List String) (d0 : Option BranchDir)
    (htrim : strTrim head = head)
    (hcc : env2.configExists = env.configExists) :
    doBuild env2 head branch branches (doBuild env head branch branches d0).dir
      = { err := none, dir := (doBuild env head branch branches d0).dir,
          invoked := false, attempted := false } := by
  by_cases hcfg : env.configExists = false
  · rw [doBuild_noconfig env head branch branches d0 hcfg]
    exact doBuild_noconfig env2 head branch branches d0 (by rw [hcc, hcfg])
  · have hcfg' : env.configExists = true := by
      revert hcfg
      cases env.configExists <;> simp
    by_cases hg : gateUpToDate d0 head = true
    · rw [doBuild_skip env head branch branches d0 hg]
      exact doBuild_skip env2 head branch branches d0 hg
    · have hg' : gateUpToDate d0 head = false := by
        revert hg
        cases gateUpToDate d0 head <;> simp
      have hm := doBuild_marker_stamped env head branch branches d0 hcfg' hg'
      exact doBuild_skip env2 head branch branches _
        (gateUpToDate_of_marker _ head hm htrim)

/-- The no-touch invariant of the loop: a name that no reported branch
(of any cycle) and no branch of the starting snapshot is a path prefix
of is never passed to `remove` and keeps its directory through the
whole loop.  (Recursive removal makes the path-prefix condition, not
mere absence from the reported sets, the right shield.) -/
theorem runLoop_no_touch (cs : List CycleIn) (d : String) :
    ∀ st : LoopState, (∀ p ∈ st.prev, isPathPrefix p d = false) →
      (∀ ci ∈ cs, ∀ p ∈ cycleNames ci, isPathPrefix p d = false) →
      (∀ l ∈ (runLoop st cs).2, d ∉ l.deletedCalls)
      ∧ (runLoop st cs).1.fs d = st.fs d := by
  induction cs with
  | nil =>
    intro st hp hd
    exact ⟨fun l hl => absurd hl (by simp [runLoop]), rfl⟩
  | cons ci rest ih =>
    intro st hp hd
    have hdci : d ∉ cycleNames ci := fun hmem => by
      have := hd ci (by simp) d hmem
      rw [isPathPrefix_self d] at this
      cases this
    have hdp : d ∉ st.prev := fun hmem => by
      have := hp d hmem
      rw [isPathPrefix_self d] at this
      cases this
    have hlog : d ∉ (runCycle st ci).2.deletedCalls := by
      rw [runCycle_deletedCalls]
      intro hmem
      exact hdp (List.mem_of_mem_filter hmem)
    have hfs : (runCycle st ci).1.fs d = st.fs d := runCycle_fs_frame st ci d hdci hp
    have hp2 : ∀ p ∈ (runCycle st ci).1.prev, isPathPrefix p d = false := by
      rw [runCycle_prev]
      exact hd ci (by simp)
    have hrest := ih (runCycle st ci).1 hp2 (fun c hc => hd c (by simp [hc]))
    constructor
    · intro l hl
      simp only [runLoop] at hl
      rcases List.mem_cons.mp hl with he | hm
      · rw [he]
        exact hlog
      · exact hrest.1 l hm
    · simp only [runLoop]
      rw [hrest.2, hfs]

/-! ## The claims -/

/-- **C1 (counterexample).**  The claim says a failed build leaves the
Build Marker unstamped (absent or holding the previous value).  On the
code this is false: for a branch previously built at `h0` whose current
head is `h1` and whose `yarn install` fails, `doBuild` throws at the
install step yet the marker already holds `h1` — the current head id —
because cli.js line 209 writes the marker before the build steps. -/
theorem C1_counterexample :
    (doBuild envInstallFail "h1" "feature" ["feature"] dirPrev).err = some .install
    ∧ markerOf (doBuild envInstallFail "h1" "feature" ["feature"] dirPrev).dir = some "h1"
    ∧ markerOf (doBuild envInstallFail "h1" "feature" ["feature"] dirPrev).dir ≠ some "h0"
    ∧ markerOf (doBuild envInstallFail "h1" "feature" ["feature"] dirPrev).dir ≠ none := by
  decide

/-- **C1 (amended).**  The Build Marker is stamped with the current head
id as soon as the gate decides a build is needed, before any build step
runs; hence a branch whose build fails at any later step (dependency
install, package read, pre-build hook, build-tool invocation, output
relocation, entry-page injection) holds a marker equal to the current
head id, and the branch is not retried while the head is unchanged: any
later `doBuild` with the same head is a no-op that never invokes the
build tool. -/
theorem C1_amended_marker_prestamped (env env2 : BuildEnv) (head branch : String)
    (branches : List String) (d0 : Option BranchDir)
    (hcfg : env.configExists = true) (hg : gateUpToDate d0 head = false)
    (htrim : strTrim head = head) :
    markerOf (doBuild env head branch branches d0).dir = some head
    ∧ doBuild env2 head branch branches (doBuild env head branch branches d0).dir
        = { err := none, dir := (doBuild env head branch branches d0).dir,
            invoked := false, attempted := false } := by
  have hm := doBuild_marker_stamped env head branch branches d0 hcfg hg
  exact ⟨hm, doBuild_skip env2 head branch branches _
    (gateUpToDate_of_marker _ head hm htrim)⟩

/-- Witness for the amended C1: concrete failing install at head `h1`
over a directory previously at `h0`. -/
theorem C1_amended_marker_prestamped_witness :
    markerOf (doBuild envInstallFail "h1" "feature" ["feature"] dirPrev).dir = some "h1"
    ∧ doBuild envAllOk "h1" "feature" ["feature"]
        (doBuild envInstallFail "h1" "feature" ["feature"] dirPrev).dir
      = { err := none, dir := (doBuild envInstallFail "h1" "feature" ["feature"] dirPrev).dir,
          invoked := false, attempted := false } :=
  C1_amended_marker_prestamped envInstallFail envAllOk "h1" "feature" ["feature"] dirPrev
    (by decide) (by decide) (by decide)

/-- **C2 (counterexample).**  The claim says that after a Reconciling
pass every current branch's entry page embeds exactly the current branch
set.  On the code this fails when a branch name contains `]` (legal in
git): the page of branch `x]` holds `const branches = ["x]"];` from its
own initial injection, the re-fix regex `\[[^\]]*\];` cannot match past
the `]` inside the name, so the pass leaves the page unchanged and the
embedded list does not equal the current set `["x]", "y"]`. -/
theorem C2_counterexample :
    ("x]" ∈ ["x]", "y"])
    ∧ pageAt (fixPass (fun _ => none) ["x]", "y"] fsBracket).1 "x]"
        = some (branchesAssign ["x]"])
    ∧ ¬ embeddedBranches (branchesAssign ["x]"]) ["x]", "y"] := by
  decide

/-- **C2 (amended).**  After a fault-free Reconciling re-fix pass, for
every branch `b` in the current branch set whose entry page exists and
is well-injected (it embeds one branch-list assignment, the leftmost
`const branches = [` occurrence being that assignment), provided no
branch name contains the character `]` and the rendered current
branch-list assignment contains no JS replacement escape (`$$`, `$&`,
`$` + backquote, `$` + quote — `String.replace` expands those inside
the inserted names), the branch list embedded in `b`'s entry page
equals exactly the current branch set — regardless of whether `b` was
rebuilt this cycle (the previously embedded list `old` is arbitrary). -/
theorem C2_amended_navigation_consistency (fixErr : String → Option FsError)
    (cur : List String) (fs : Fsm) (b : String)
    (pre post : List Char) (old : List String)
    (hb : b ∈ cur)
    (hne : ∀ x, fixErr x = none)
    (hcur : ∀ n ∈ cur, ']' ∉ n.data)
    (hexp : noExpand (assignL cur) = true)
    (hold : ∀ n ∈ old, ']' ∉ n.data)
    (hpre : noEarlyPat pre)
    (hpage : pageAt fs b = some (String.mk (pre ++ (assignL old ++ post)))) :
    pageAt (fixPass fixErr cur fs).1 b = some (String.mk (pre ++ (assignL cur ++ post)))
    ∧ embeddedBranches (String.mk (pre ++ (assignL cur ++ post))) cur := by
  constructor
  · rw [fixPass,
      fixPassGo_wellInjected fixErr cur cur fs b pre post old hne hpre hcur hexp hold hpage]
    simp [hb]
  · exact ⟨pre, post, by simp⟩

/-- Witness for the amended C2: branch `main`, previously embedding
`["main"]`, embeds `["main", "dev"]` after the pass. -/
theorem C2_amended_navigation_consistency_witness :
    pageAt (fixPass (fun _ => none) ["main", "dev"] fsPlain).1 "main"
        = some (String.mk (([] : List Char) ++ (assignL ["main", "dev"] ++ [])))
    ∧ embeddedBranches (String.mk (([] : List Char) ++ (assignL ["main", "dev"] ++ [])))
        ["main", "dev"] :=
  C2_amended_navigation_consistency (fun _ => none) ["main", "dev"] fsPlain "main"
    [] [] ["main"] (by decide) (fun _ => rfl) (by decide) (by decide) (by decide)
    noEarlyPat_nil (by decide)

/-- **C3 (counterexample).**  The claim says no branch in `current` has
its output directory removed.  But fs-extra's `remove` is recursive:
with `previous = ["feature"]` and `current = ["feature/x"]` (branch
`feature` deleted upstream and `feature/x` created since the last
cycle), the pass calls `remove(<storybooks>/feature)`, which wipes the
whole subtree — including the directory of the *current* branch
`feature/x`. -/
theorem C3_counterexample :
    ("feature/x" ∈ ["feature/x"])
    ∧ fsNested "feature/x" = some emptyDir
    ∧ (removePass fsNested ["feature/x"] ["feature"] (fun _ => none)).calls = ["feature"]
    ∧ (removePass fsNested ["feature/x"] ["feature"] (fun _ => none)).fs "feature/x"
        = none := by
  decide

/-- **C3 (amended).**  Set reconciliation of `removeDeletedBranches`:
`remove` is called for exactly the branches in `previous − current` (in
order); absent filesystem faults, every branch of `previous` not in
`current` ends with its output directory removed, and — removal being
recursive — a directory is untouched exactly when no removed branch
name is a path prefix of its name (so a branch in `current`, or outside
`previous`, keeps its directory unless its name extends a removed
branch's name by `/`-separated segments). -/
theorem C3_amended_set_reconciliation (fs : Fsm) (cur prev : List String)
    (remErr : String → Option FsError) :
    (removePass fs cur prev remErr).calls = prev.filter (fun p => !cur.contains p)
    ∧ ((∀ p, remErr p = none) →
        (∀ b, b ∈ prev → b ∉ cur → (removePass fs cur prev remErr).fs b = none)
        ∧ (∀ b, (∀ p, p ∈ prev → p ∉ cur → isPathPrefix p b = false) →
            (removePass fs cur prev remErr).fs b = fs b)) := by
  refine ⟨removePass_calls fs cur prev remErr, fun hok => ⟨?_, ?_⟩⟩
  · intro b hbp hbc
    rw [removePass_fs]
    have hany : (prev.any
        fun p => !cur.contains p && isPathPrefix p b && (remErr p).isNone) = true := by
      refine List.any_eq_true.mpr ⟨b, hbp, ?_⟩
      have h2 : cur.contains b = false := by simpa using hbc
      rw [h2, isPathPrefix_self, hok b]
      rfl
    rw [hany]
    simp
  · intro b hshield
    rw [removePass_fs]
    have hany : (prev.any
        fun p => !cur.contains p && isPathPrefix p b && (remErr p).isNone) = false := by
      cases hA : prev.any
          fun p => !cur.contains p && isPathPrefix p b && (remErr p).isNone with
      | false => rfl
      | true =>
        exfalso
        obtain ⟨p, hpm, hfp⟩ := List.any_eq_true.mp hA
        simp only [Bool.and_eq_true] at hfp
        have hnc := hfp.1.1
        have hpc : p ∉ cur := by
          intro hin
          have hcp : cur.contains p = true := by simpa using hin
          rw [hcp] at hnc
          simp at hnc
        rw [hshield p hpm hpc] at hfp
        exact Bool.false_ne_true hfp.1.2
    rw [hany]
    simp

/-- Witness for the amended C3: transition `["main", "feat-a"] →
`["main"]` removes exactly `feat-a` and keeps `main` (which no removed
branch is a path prefix of). -/
theorem C3_amended_set_reconciliation_witness :
    (removePass fsTwo ["main"] ["main", "feat-a"] (fun _ => none)).calls = ["feat-a"]
    ∧ (removePass fsTwo ["main"] ["main", "feat-a"] (fun _ => none)).fs "feat-a" = none
    ∧ (removePass fsTwo ["main"] ["main", "feat-a"] (fun _ => none)).fs "main"
        = fsTwo "main" := by
  refine ⟨?_, ?_, ?_⟩
  · rw [(C3_amended_set_reconciliation fsTwo ["main"] ["main", "feat-a"]
      (fun _ => none)).1]
    decide
  · exact ((C3_amended_set_reconciliation fsTwo ["main"] ["main", "feat-a"]
      (fun _ => none)).2 (fun _ => rfl)).1 "feat-a" (by decide) (by decide)
  · exact ((C3_amended_set_reconciliation fsTwo ["main"] ["main", "feat-a"]
      (fun _ => none)).2 (fun _ => rfl)).2 "main" (by decide)

/-- **C4.**  Build Gate idempotence: if the persisted marker's trimmed
content equals the current head id, `doBuild` is a complete no-op (no
error, no invocation, no state change, gate not passed); with a
configuration present and the gate not up to date, the build steps are
started; and running `doBuild` twice with an unchanged (whitespace-free)
head id never invokes the build tool on the second run. -/
theorem C4_build_gate_idempotent (env : BuildEnv) (head branch : String)
    (branches : List String) (d0 : Option BranchDir) :
    (gateUpToDate d0 head = true →
      doBuild env head branch branches d0
        = { err := none, dir := d0, invoked := false, attempted := false })
    ∧ (env.configExists = true → gateUpToDate d0 head = false →
      (doBuild env head branch branches d0).attempted = true)
    ∧ (strTrim head = head →
      (doBuild env head branch branches
          (doBuild env head branch branches d0).dir).invoked = false) := by
  refine ⟨fun h => doBuild_skip env head branch branches d0 h,
    fun hc hg => doBuild_attempted env head branch branches d0 hc hg,
    fun htrim => ?_⟩
  rw [doBuild_rerun_noop env env head branch branches d0 htrim rfl]

/-- Witness for C4: an up-to-date marker skips; a stale marker attempts;
a second all-ok run after a first all-ok run does not invoke the tool. -/
theorem C4_build_gate_idempotent_witness :
    (doBuild envAllOk "h0" "feature" ["feature"] dirPrev
        = { err := none, dir := dirPrev, invoked := false, attempted := false })
    ∧ (doBuild envAllOk "h1" "feature" ["feature"] dirPrev).attempted = true
    ∧ (doBuild envAllOk "h1" "feature" ["feature"]
        (doBuild envAllOk "h1" "feature" ["feature"] dirPrev).dir).invoked = false := by
  refine ⟨?_, ?_, ?_⟩
  · exact (C4_build_gate_idempotent envAllOk "h0" "feature" ["feature"] dirPrev).1
      (by decide)
  · exact (C4_build_gate_idempotent envAllOk "h1" "feature" ["feature"] dirPrev).2.1
      (by decide) (by decide)
  · exact (C4_build_gate_idempotent envAllOk "h1" "feature" ["feature"] dirPrev).2.2
      (by decide)

/-- **C5.**  Failure isolation: with pairwise-distinct branch names,
after the build phase of a cycle every branch's directory is exactly its
own `doBuild` outcome applied to its own previous directory — an
exception thrown while building one branch is caught inside `build` and
cannot change any other branch's result; the Reconciling deletion pass
still runs (its `remove` calls are exactly `previous − current`
whatever the build outcomes); and the loop completes every cycle (one
cycle log per cycle, whatever the per-branch outcomes). -/
theorem C5_failure_isolation (st : LoopState) (ci : CycleIn)
    (hnd : (cycleNames ci).Nodup) :
    (∀ t ∈ ci.tasks,
      cycleBuildFs st ci t.branch
        = (doBuild t.env t.head t.branch (cycleNames ci) (st.fs t.branch)).dir)
    ∧ (runCycle st ci).2.deletedCalls
        = st.prev.filter (fun p => !(cycleNames ci).contains p)
    ∧ (∀ cs : List CycleIn, (runLoop st cs).2.length = cs.length) := by
  refine ⟨fun t ht => ?_, runCycle_deletedCalls st ci, fun cs => runLoop_length st cs⟩
  exact runBuilds_mem (cycleNames ci) ci.tasks st.fs t hnd ht

/-- Witness for C5: in a cycle where `bad` fails at install, `good` is
still built from its own environment, and the stale branch is still
deleted. -/
theorem C5_failure_isolation_witness :
    cycleBuildFs stC5 cycleC5 "good"
      = (doBuild envAllOk "h2" "good" (cycleNames cycleC5) (stC5.fs "good")).dir
    ∧ (runCycle stC5 cycleC5).2.deletedCalls
        = stC5.prev.filter (fun p => !(cycleNames cycleC5).contains p) := by
  have h := C5_failure_isolation stC5 cycleC5 (by decide)
  exact ⟨h.1 ⟨"good", "h2", envAllOk⟩ (by decide), h.2.1⟩

/-- GetSubstitution-free replacement strings make the global replace
coincide with plain literal substitution. -/
theorem replaceAllFuel_noExpand (pat repl : List Char) (hr : noExpand repl = true) :
    ∀ (n : Nat) (l seen : List Char),
      replaceAllFuel pat repl n seen l = replaceAllLitFuel pat repl n l := by
  intro n
  induction n with
  | zero =>
    intro l seen
    rfl
  | succ n ih =>
    intro l seen
    cases l with
    | nil => rfl
    | cons c cs =>
      rw [replaceAllFuel, replaceAllLitFuel]
      by_cases hm : pat.isPrefixOf (c :: cs) = true ∧ 1 ≤ pat.length
      · rw [if_pos hm, if_pos hm, noExpand_expand _ _ _ repl hr, ih]
      · rw [if_neg hm, if_neg hm, ih]

/-- The redirect page written by the code equals the spec's literal
substitution whenever the branch name has no JS replacement escape. -/
theorem redirectContent_eq_spec (b : String) (hb : noExpand b.data = true) :
    redirectContent b = redirectContentSpec b := by
  rw [redirectContent, redirectContentSpec, replaceAllL, replaceAllLitL]
  exact congrArg String.mk
    (replaceAllFuel_noExpand ("%defaultBranch%".data) b.data hb
      redirectAsset.data.length redirectAsset.data [])

/-- **C6 (counterexample).**  The claim says the redirect page is
rewritten "to point to" the new default branch.  JS `String.replace`
expands `$`-escapes in the replacement: for the fallback branch `a$&b`
(legal in git), `$&` re-inserts the matched `%defaultBranch%`, so the
code writes a page still containing the placeholder — not the page that
points to `a$&b` (i.e. not the spec's literal substitution). -/
theorem C6_counterexample :
    defaultStep ["a$&b"] "main" "OLD" = ("a$&b", redirectContent "a$&b", true)
    ∧ redirectContent "a$&b"
        = "<html><head><meta http-equiv=\"refresh\" content=\"0; url=a%defaultBranch%b/\"></head></html>"
    ∧ redirectContentSpec "a$&b"
        = "<html><head><meta http-equiv=\"refresh\" content=\"0; url=a$&b/\"></head></html>"
    ∧ redirectContent "a$&b" ≠ redirectContentSpec "a$&b" := by
  decide

/-- **C6 (amended).**  If branches exist and the current default branch
is not among them, the new default becomes the first branch in
Enumerator-reported order and the redirect page is rewritten with the
new name substituted for the `%defaultBranch%` placeholders via JS
`String.replace`; the rewritten page actually points to the new default
(it equals the spec's literal substitution) whenever the name contains
no JS replacement escape (`$$`, `$&`, `$` + backquote, `$` + quote).
If the default is still present, or no branches exist, the default and
the redirect page are unchanged. -/
theorem C6_amended_default_fallback (cur : List String) (dflt redirect : String) :
    (cur ≠ [] → cur.contains dflt = false →
      defaultStep cur dflt redirect
        = (cur.headD dflt, redirectContent (cur.headD dflt), true))
    ∧ (∀ b : String, noExpand b.data = true → redirectContent b = redirectContentSpec b)
    ∧ (cur.contains dflt = true → defaultStep cur dflt redirect = (dflt, redirect, false))
    ∧ (cur = [] → defaultStep cur dflt redirect = (dflt, redirect, false)) := by
  refine ⟨fun hne hc => ?_, fun b hb => redirectContent_eq_spec b hb,
    fun hc => ?_, fun he => ?_⟩
  · unfold defaultStep
    have hlen : (cur.length != 0) = true := by
      cases cur with
      | nil => exact absurd rfl hne
      | cons a l => simp
    rw [hlen, hc]
    simp
  · unfold defaultStep
    rw [hc]
    simp
  · subst he
    rfl

/-- Witness for the amended C6: all cases at concrete inputs; the
escape-free name `feat` yields a redirect that equals the spec's
literal substitution. -/
theorem C6_amended_default_fallback_witness :
    defaultStep ["feat", "dev"] "main" "OLD"
      = ("feat", redirectContent "feat", true)
    ∧ redirectContent "feat" = redirectContentSpec "feat"
    ∧ defaultStep ["main", "dev"] "main" "OLD" = ("main", "OLD", false)
    ∧ defaultStep [] "main" "OLD" = ("main", "OLD", false) := by
  refine ⟨?_, ?_, ?_, ?_⟩
  · exact (C6_amended_default_fallback ["feat", "dev"] "main" "OLD").1
      (by decide) (by decide)
  · exact (C6_amended_default_fallback ["feat", "dev"] "main" "OLD").2.1
      "feat" (by decide)
  · exact (C6_amended_default_fallback ["main", "dev"] "main" "OLD").2.2.1 (by decide)
  · exact (C6_amended_default_fallback [] "main" "OLD").2.2.2 rfl

/-- **C7.**  ENOENT is a benign no-op in housekeeping: in the deletion
pass a warning is logged exactly for the processed branches whose
`remove` failed with a non-ENOENT error (ENOENT is silent), and a
branch whose own `remove` failed keeps its directory — provided no
*other* previously-tracked branch is a path prefix of it (recursive
removal of an ancestor can still take it away); in the re-fix pass a
warning is logged exactly for the branches whose existing page's rewrite
failed with a non-ENOENT error (a missing page or directory is skipped
silently), and any failed rewrite leaves the entry untouched.  Both
passes are total functions — no error propagates. -/
theorem C7_enoent_benign (fs : Fsm) (cur prev : List String)
    (remErr fixErr : String → Option FsError) :
    ((removePass fs cur prev remErr).warns
      = prev.filter (fun p => !cur.contains p && isOtherErr (remErr p)))
    ∧ (∀ b, remErr b ≠ none → (∀ p ∈ prev, p = b ∨ isPathPrefix p b = false) →
      (removePass fs cur prev remErr).fs b = fs b)
    ∧ ((fixPass fixErr cur fs).2
      = cur.filter (fun b => (pageAt fs b).isSome && isOtherErr (fixErr b)))
    ∧ (∀ b, fixErr b ≠ none → (fixPass fixErr cur fs).1 b = fs b) := by
  refine ⟨removePass_warns fs cur prev remErr, fun b hb hshield => ?_,
    fixPassGo_warns fixErr cur cur fs,
    fun b hb => fixPassGo_fs_of_err fixErr cur cur fs b hb⟩
  rw [removePass_fs]
  have hisN : (remErr b).isNone = false := by
    cases h : remErr b with
    | none => exact absurd h hb
    | some e => rfl
  have hany : (prev.any
      fun p => !cur.contains p && isPathPrefix p b && (remErr p).isNone) = false := by
    cases hA : prev.any
        fun p => !cur.contains p && isPathPrefix p b && (remErr p).isNone with
    | false => rfl
    | true =>
      exfalso
      obtain ⟨p, hpm, hfp⟩ := List.any_eq_true.mp hA
      simp only [Bool.and_eq_true] at hfp
      rcases hshield p hpm with he | hppf
      · subst he
        rw [hisN] at hfp
        exact Bool.false_ne_true hfp.2
      · rw [hppf] at hfp
        exact Bool.false_ne_true hfp.1.2
  rw [hany]
  simp

/-- Witness for C7: deleting `a` (ENOENT), `b` (EACCES) and `c` (ok)
warns only about `b`; fixing pages of `a` (ENOENT) and `b` (EACCES)
warns only about `b`; the failed operations left the state untouched. -/
theorem C7_enoent_benign_witness :
    (removePass fsABC [] ["a", "b", "c"] errABC).warns = ["b"]
    ∧ (removePass fsABC [] ["a", "b", "c"] errABC).fs "a" = fsABC "a"
    ∧ (fixPass errABC ["a", "b"] fsABC).2 = ["b"]
    ∧ (fixPass errABC ["a", "b"] fsABC).1 "a" = fsABC "a" := by
  have h1 := C7_enoent_benign fsABC [] ["a", "b", "c"] errABC errABC
  have h2 := C7_enoent_benign fsABC ["a", "b"] [] errABC errABC
  refine ⟨?_, h1.2.1 "a" (by decide) (by decide), ?_, h2.2.2.2 "a" (by decide)⟩
  · rw [h1.1]
    decide
  · rw [h2.2.2.1]
    decide

/-- **C8.**  Path traversal safety: for every request, whatever path the
response body is read from (the direct file, or a directory's
`index.html`) starts with `resolve(dir) + "/"` — the canonicalized path
is checked against the served root and replaced by the root itself when
it escapes, so no read ever happens outside the output root. -/
theorem C8_path_within_root (sfs : ServerFs) (dirSegs : List String) (pathname : String) :
    optWithin (handleRequest sfs dirSegs pathname).readFrom (rootStr dirSegs ++ "/")
      = true := by
  simp only [handleRequest]
  cases hn : sfs.node (servedPath dirSegs pathname) with
  | none => rfl
  | some n =>
    cases n with
    | dir =>
      by_cases hs : strEndsWith pathname "/" = true
      · simp only [hs, Bool.not_true, Bool.false_eq_true, if_false]
        exact serveFile_within sfs _ _
          (strStartsWith_append _ _ _ (servedPath_startsWith dirSegs pathname))
      · have hs' : strEndsWith pathname "/" = false := by
          revert hs
          cases strEndsWith pathname "/" <;> simp
        simp [hs', optWithin]
    | file => exact serveFile_within sfs _ _ (servedPath_startsWith dirSegs pathname)

/-- **C9.**  HTTP response mapping: an existing directory without a
trailing slash redirects (301, `Location: pathname + "/"`); with a
trailing slash its `index.html` is served; a missing resolved path gives
404; a file whose read fails gives 500; a served file whose extension is
not in the MIME table is sent as `text/plain`. -/
theorem C9_http_response_mapping (sfs : ServerFs) (dirSegs : List String)
    (pathname : String) :
    (sfs.node (servedPath dirSegs pathname) = some .dir →
      strEndsWith pathname "/" = false →
      handleRequest sfs dirSegs pathname
        = { status := 301, location := some (pathname ++ "/"), contentType := none,
            body := none, readFrom := none })
    ∧ (sfs.node (servedPath dirSegs pathname) = some .dir →
      strEndsWith pathname "/" = true →
      handleRequest sfs dirSegs pathname
        = serveFile sfs (servedPath dirSegs pathname ++ "/index.html"))
    ∧ (sfs.node (servedPath dirSegs pathname) = none →
      (handleRequest sfs dirSegs pathname).status = 404)
    ∧ (∀ e, sfs.node (servedPath dirSegs pathname) = some .file →
      sfs.readF (servedPath dirSegs pathname) = .error e →
      (handleRequest sfs dirSegs pathname).status = 500
        ∧ (handleRequest sfs dirSegs pathname).body = some "Error reading file!")
    ∧ (∀ dat, sfs.node (servedPath dirSegs pathname) = some .file →
      sfs.readF (servedPath dirSegs pathname) = .ok dat →
      mimeLookup (extOf (servedPath dirSegs pathname)) = none →
      (handleRequest sfs dirSegs pathname).status = 200
        ∧ (handleRequest sfs dirSegs pathname).body = some dat
        ∧ (handleRequest sfs dirSegs pathname).contentType = some "text/plain") := by
  refine ⟨fun hnode hs => ?_, fun hnode hs => ?_, fun hnode => ?_,
    fun e hnode hr => ?_, fun dat hnode hr hm => ?_⟩
  · simp [handleRequest, hnode, hs]
  · simp [handleRequest, hnode, hs]
  · simp [handleRequest, hnode]
  · constructor <;> simp [handleRequest, serveFile, hnode, hr]
  · refine ⟨?_, ?_, ?_⟩ <;> simp [handleRequest, serveFile, hnode, hr, hm]

/-- Witness for C9: all five cases against a concrete served tree. -/
theorem C9_http_response_mapping_witness :
    handleRequest sfsW ["r"] "/d"
      = { status := 301, location := some "/d/", contentType := none,
          body := none, readFrom := none }
    ∧ handleRequest sfsW ["r"] "/d/"
        = serveFile sfsW (servedPath ["r"] "/d/" ++ "/index.html")
    ∧ (handleRequest sfsW ["r"] "/nope").status = 404
    ∧ ((handleRequest sfsW ["r"] "/g").status = 500
        ∧ (handleRequest sfsW ["r"] "/g").body = some "Error reading file!")
    ∧ ((handleRequest sfsW ["r"] "/f").status = 200
        ∧ (handleRequest sfsW ["r"] "/f").body = some "DATA"
        ∧ (handleRequest sfsW ["r"] "/f").contentType = some "text/plain") := by
  refine ⟨?_, ?_, ?_, ?_, ?_⟩
  · have := (C9_http_response_mapping sfsW ["r"] "/d").1 (by decide) (by decide)
    rw [this]
    decide
  · exact (C9_http_response_mapping sfsW ["r"] "/d/").2.1 (by decide) (by decide)
  · exact (C9_http_response_mapping sfsW ["r"] "/nope").2.2.1 (by decide)
  · exact (C9_http_response_mapping sfsW ["r"] "/g").2.2.2.1 "EIO" (by decide) rfl
  · exact (C9_http_response_mapping sfsW ["r"] "/f").2.2.2.2 "DATA" (by decide) rfl
      (by decide)

/-- **C10 (counterexample).**  The claim says an output directory left
on disk by an earlier process run, for a branch that no longer exists
upstream, is never deleted unless that branch name reappears and then
disappears again.  But `remove` is recursive over the directory tree:
the orphan `x/y` — a name never reported by any cycle — is wiped when
branch `x` is reported in one cycle and gone the next, because
`remove(<storybooks>/x)` deletes the whole `x` subtree. -/
theorem C10_counterexample :
    "x/y" ∉ cycleNames cycleX
    ∧ "x/y" ∉ cycleNames cycleZ
    ∧ fsOrphanNested "x/y" = some emptyDir
    ∧ (runLoop ⟨fsOrphanNested, [], "m", "R"⟩ [cycleX, cycleZ]).1.fs "x/y" = none := by
  decide

/-- **C10 (amended).**  The previous-branches snapshot starts empty, so
the first cycle's deletion pass calls `remove` on nothing; a branch
name never reported by any cycle is itself never passed to `remove`;
and its directory survives the whole loop provided no reported branch
name is a path prefix of it — removal being recursive, an orphan
directory nested (by `/`-segments) under a branch name that is reported
in one cycle and gone in a later one is deleted together with that
branch's subtree. -/
theorem C10_amended_no_spurious_deletion (fs0 : Fsm) (dflt0 red0 : String)
    (cs : List CycleIn) (d : String)
    (hd : ∀ ci ∈ cs, ∀ p ∈ cycleNames ci, isPathPrefix p d = false) :
    ((runLoop ⟨fs0, [], dflt0, red0⟩ cs).2.head?.map (·.deletedCalls) = none
      ∨ (runLoop ⟨fs0, [], dflt0, red0⟩ cs).2.head?.map (·.deletedCalls) = some [])
    ∧ (∀ l ∈ (runLoop ⟨fs0, [], dflt0, red0⟩ cs).2, d ∉ l.deletedCalls)
    ∧ (runLoop ⟨fs0, [], dflt0, red0⟩ cs).1.fs d = fs0 d := by
  have h := runLoop_no_touch cs d ⟨fs0, [], dflt0, red0⟩ (by simp) hd
  refine ⟨?_, h.1, h.2⟩
  cases cs with
  | nil => exact Or.inl rfl
  | cons ci rest =>
    right
    simp only [runLoop, List.head?, Option.map]
    rw [runCycle_deletedCalls]
    rfl

/-- Witness for the amended C10: two cycles reporting only `m`, starting
from a root holding a leftover directory `orphan` (which no reported
name path-prefixes): nothing is deleted in the first cycle, `orphan` is
never deleted and its directory survives. -/
theorem C10_amended_no_spurious_deletion_witness :
    ((runLoop ⟨fsOrphan, [], "m", "R"⟩ [cycleM, cycleM]).2.head?.map (·.deletedCalls) = none
      ∨ (runLoop ⟨fsOrphan, [], "m", "R"⟩ [cycleM, cycleM]).2.head?.map (·.deletedCalls)
          = some [])
    ∧ (∀ l ∈ (runLoop ⟨fsOrphan, [], "m", "R"⟩ [cycleM, cycleM]).2,
        "orphan" ∉ l.deletedCalls)
    ∧ (runLoop ⟨fsOrphan, [], "m", "R"⟩ [cycleM, cycleM]).1.fs "orphan"
        = fsOrphan "orphan" :=
  C10_amended_no_spurious_deletion fsOrphan "m" "R" [cycleM, cycleM] "orphan"
    (fun ci hc => by
      rcases List.mem_cons.mp hc with h | h
      · subst h
        decide
      · rcases List.mem_cons.mp h with h2 | h2
        · subst h2
          decide
        · cases h2)

end SB
